import Mathlib

/-!
Shallow embedding of `validate_project.py`, the JJYWave project integrity
validator.  The script inspects a filesystem state (existence of paths, text
contents of files, the set of `.swift` files found by a recursive glob) and
returns an ordered list of human-readable issue strings; the process exit code
is `0` exactly when that list is empty.

The filesystem is modelled as a record of the three observations the script
makes: `entry` (does a path exist, and is it a file or a directory — the
script's `Path.exists()` is `(entry p).isSome`), `read` (reading a path as
text, which may fail with an error message), and `swiftFiles` (the list of
path strings produced by `project_root.glob("**/*.swift")`).
-/

namespace JJYWave

inductive FType : Type
  | file : FType
  | dir : FType
deriving DecidableEq

structure FS : Type where
  entry : String → Option FType
  read : String → Except String String
  swiftFiles : List String

/-- `Path.exists()` in the script: true for files and directories alike. -/
def FS.pathExists (fs : FS) (p : String) : Bool :=
  (fs.entry p).isSome

/-- Python's `needle in hay` substring test, on the underlying characters:
`isPrefixChars n l` is "n is a prefix of l". -/
def isPrefixChars : List Char → List Char → Bool
  | [], _ => true
  | _ :: _, [] => false
  | a :: as, b :: bs => a == b && isPrefixChars as bs

def containsChars (needle : List Char) : List Char → Bool
  | [] => needle.isEmpty
  | c :: rest => isPrefixChars needle (c :: rest) || containsChars needle rest

/-- Python's `needle in hay` on strings. -/
def strContains (hay needle : String) : Bool :=
  containsChars needle.data hay.data

/-! ### Fixed configuration constants of the script -/

def projectDirName : String := "JJYWave.xcodeproj"

def pbxprojPath : String := "JJYWave.xcodeproj/project.pbxproj"

def required_sections : List String :=
  ["Begin PBXBuildFile section",
   "Begin PBXFileReference section",
   "Begin PBXNativeTarget section",
   "Begin PBXProject section"]

def expected_main_swift : Nat := 17

def expected_test_swift : Nat := 20

def required_dirs : List String :=
  ["App",
   "JJYKit/Audio",
   "JJYKit/Frames",
   "JJYKit/Generator",
   "JJYKit/Services",
   "JJYKit/Time",
   "Tests",
   "JJYWaveTests"]

def required_files : List String :=
  ["Base.lproj/Main.storyboard",
   "Localizable.xcstrings",
   "JJYWave.entitlements",
   "README.md"]

def critical_files : List String :=
  ["JJYKit/Generator/JJYAudioGenerator.swift",
   "App/ViewController.swift",
   "App/AppDelegate.swift"]

/-- Python's `repr` of a string that contains no quote characters:
wrapped in single quotes. -/
def pyStr (s : String) : String := "\x27" ++ s ++ "\x27"

/-- Python's `str`/`repr` of a list of plain strings, as interpolated by the
script's f-strings. -/
def pyListRepr (l : List String) : String :=
  "[" ++ String.intercalate ", " (l.map pyStr) ++ "]"

/-! ### The brace-counting "quick syntax check"

The script removes string literals and comments with four successive regex
substitutions before counting braces:
  `re.sub(r'"[^"]*"', '""', content)`          (double-quoted literals),
  `re.sub(r"'[^']*'", "''", ...)`              (single-quoted literals),
  `re.sub(r'//.*', '', ...)`                   (line comments),
  `re.sub(r'/\*.*?\*/', '', ..., re.DOTALL)`   (block comments, non-greedy).
Each is translated as a left-to-right scan with exactly the semantics of the
corresponding regex substitution. -/

def dquote : Char := Char.ofNat 34

def squote : Char := Char.ofNat 39

def openBrace : Char := Char.ofNat 123

def closeBrace : Char := Char.ofNat 125

/-- Split a character list at the first occurrence of `q`:
`findSplit q l = some (b, a)` when `l = b ++ q :: a` with `q ∉ b`. -/
def findSplit (q : Char) : List Char → Option (List Char × List Char)
  | [] => none
  | c :: rest =>
    if c = q then some ([], rest)
    else
      match findSplit q rest with
      | some (b, a) => some (c :: b, a)
      | none => none

theorem findSplit_length {q : Char} :
    ∀ {l b a : List Char}, findSplit q l = some (b, a) → a.length < l.length := by
  intro l
  induction l with
  | nil => intro b a h; simp [findSplit] at h
  | cons c rest ih =>
    intro b a h
    simp only [findSplit] at h
    by_cases hc : c = q
    · simp [hc] at h
      simp [← h.2, List.length_cons, Nat.lt_succ_self]
    · simp [hc] at h
      cases hfs : findSplit q rest with
      | none => rw [hfs] at h; simp at h
      | some p =>
        rw [hfs] at h
        cases p with
        | mk b' a' =>
          simp at h
          have := ih hfs
          rw [← h.2]
          exact Nat.lt_succ_of_lt this

/-- `re.sub(q [^q]* q, qq, ·)`: replace each (leftmost, shortest) quoted span
by an empty quoted span; an unmatched trailing quote is left as-is. -/
def stripQuoted (q : Char) : List Char → List Char
  | [] => []
  | c :: rest =>
    if c = q then
      match h : findSplit q rest with
      | some (_, a) => q :: q :: stripQuoted q a
      | none => c :: rest
    else c :: stripQuoted q rest
termination_by l => l.length
decreasing_by
  · exact Nat.lt_succ_of_lt (findSplit_length h)
  · simp

theorem length_dropWhile_le' (p : Char → Bool) (l : List Char) :
    (l.dropWhile p).length ≤ l.length := by
  induction l with
  | nil => simp [List.dropWhile]
  | cons c rest ih =>
    simp only [List.dropWhile]
    by_cases h : p c
    · simp [h]; exact Nat.le_succ_of_le ih
    · simp [h]

/-- `re.sub(r'//.*', '', ·)`: delete from each `//` to the end of its line. -/
def stripLineComments : List Char → List Char
  | [] => []
  | c :: rest =>
    if c = '/' ∧ rest.head? = some '/' then
      stripLineComments ((rest.drop 1).dropWhile (fun x => x ≠ '\n'))
    else c :: stripLineComments rest
termination_by l => l.length
decreasing_by
  · calc ((rest.drop 1).dropWhile (fun x => x ≠ '\n')).length
        ≤ (rest.drop 1).length := length_dropWhile_le' _ _
      _ ≤ rest.length := by simp [List.length_drop]
      _ < rest.length + 1 := Nat.lt_succ_self _
  · simp

/-- Find the first `*/` and return what follows it. -/
def findCloseBC : List Char → Option (List Char)
  | [] => none
  | c :: rest =>
    if c = '*' ∧ rest.head? = some '/' then some (rest.drop 1)
    else findCloseBC rest

theorem findCloseBC_length :
    ∀ {l a : List Char}, findCloseBC l = some a → a.length < l.length := by
  intro l
  induction l with
  | nil => intro a h; simp [findCloseBC] at h
  | cons c rest ih =>
    intro a h
    simp only [findCloseBC] at h
    by_cases hc : c = '*' ∧ rest.head? = some '/'
    · rw [if_pos hc] at h
      simp at h
      rw [← h]
      simp [List.length_drop]
      omega
    · rw [if_neg hc] at h
      exact Nat.lt_succ_of_lt (ih h)

/-- `re.sub(r'/\*.*?\*/', '', ·, re.DOTALL)`: delete each `/*`-to-nearest-`*/`
span; a `/*` with no later `*/` is left as-is (the regex finds no match). -/
def stripBlockComments : List Char → List Char
  | [] => []
  | c :: rest =>
    if c = '/' ∧ rest.head? = some '*' then
      match h : findCloseBC (rest.drop 1) with
      | some a => stripBlockComments a
      | none => c :: rest
    else c :: stripBlockComments rest
termination_by l => l.length
decreasing_by
  · calc a.length < (rest.drop 1).length := findCloseBC_length h
      _ ≤ rest.length := by simp [List.length_drop]
      _ < rest.length + 1 := Nat.lt_succ_self _
  · simp

/-- The `clean_content` pipeline of check 6, in the script's order:
double quotes, single quotes, line comments, block comments. -/
def clean_content (s : String) : List Char :=
  stripBlockComments (stripLineComments (stripQuoted squote (stripQuoted dquote s.data)))

/-! ### How the stripping passes act on well-delimited text

These lemmas characterise each pass on text that decomposes into plain code,
complete string literals and complete comments; they drive claim C4. -/

theorem stripQuoted_cons_ne {q c : Char} (h : c ≠ q) (l : List Char) :
    stripQuoted q (c :: l) = c :: stripQuoted q l := by
  rw [stripQuoted]
  simp [h]

theorem stripQuoted_append {q : Char} (xs ys : List Char) (h : ∀ c ∈ xs, c ≠ q) :
    stripQuoted q (xs ++ ys) = xs ++ stripQuoted q ys := by
  induction xs with
  | nil => simp
  | cons c rest ih =>
    have hc := h c (List.mem_cons_self c rest)
    rw [List.cons_append, stripQuoted_cons_ne hc,
      ih (fun x hx => h x (List.mem_cons_of_mem _ hx))]
    rfl

theorem findSplit_append {q : Char} (body ys : List Char) (h : ∀ c ∈ body, c ≠ q) :
    findSplit q (body ++ q :: ys) = some (body, ys) := by
  induction body with
  | nil => simp [findSplit]
  | cons c bs ih =>
    have hc : c ≠ q := h c (List.mem_cons_self c bs)
    have hbs : ∀ x ∈ bs, x ≠ q := fun x hx => h x (List.mem_cons_of_mem _ hx)
    simp [findSplit, hc, ih hbs]

theorem stripQuoted_quote {q : Char} {body ys : List Char} (h : ∀ c ∈ body, c ≠ q) :
    stripQuoted q (q :: (body ++ q :: ys)) = q :: q :: stripQuoted q ys := by
  have hfs := findSplit_append body ys h
  rw [stripQuoted]
  split
  · split
    · rename_i fst a heq
      rw [hfs] at heq
      injection heq with hp
      injection hp with h1 h2
      subst h1
      subst h2
      rfl
    · rename_i heq
      rw [hfs] at heq
      simp at heq
  · rename_i hcond
    exact absurd rfl hcond

theorem stripLC_cons {c : Char} {rest : List Char}
    (h : ¬(c = '/' ∧ rest.head? = some '/')) :
    stripLineComments (c :: rest) = c :: stripLineComments rest := by
  rw [stripLineComments]
  simp [h]

theorem stripLC_append (xs ys : List Char) (h : ∀ c ∈ xs, c ≠ '/') :
    stripLineComments (xs ++ ys) = xs ++ stripLineComments ys := by
  induction xs with
  | nil => simp
  | cons c rest ih =>
    have hc := h c (List.mem_cons_self c rest)
    rw [List.cons_append, stripLC_cons (by simp [hc]),
      ih (fun x hx => h x (List.mem_cons_of_mem _ hx))]
    rfl

theorem dropWhile_append_all {p : Char → Bool} {xs ys : List Char}
    (h : ∀ x ∈ xs, p x = true) :
    (xs ++ ys).dropWhile p = ys.dropWhile p := by
  induction xs with
  | nil => rfl
  | cons c rest ih =>
    rw [List.cons_append, List.dropWhile_cons, h c (List.mem_cons_self c rest)]
    simp only [ite_true]
    exact ih (fun x hx => h x (List.mem_cons_of_mem _ hx))

theorem stripLC_lineC {body ys : List Char} (h : ∀ c ∈ body, c ≠ '\n') :
    stripLineComments ('/' :: '/' :: (body ++ '\n' :: ys))
      = '\n' :: stripLineComments ys := by
  rw [stripLineComments]
  split
  · simp only [List.drop_succ_cons, List.drop_zero]
    rw [dropWhile_append_all (by intro x hx; simp [h x hx])]
    have hdw : (('\n' :: ys).dropWhile (fun x => x ≠ '\n')) = '\n' :: ys := by simp
    rw [hdw]
    exact stripLC_cons (by simp)
  · rename_i hcond
    exact absurd ⟨rfl, rfl⟩ hcond

theorem stripBC_cons {c : Char} {rest : List Char}
    (h : ¬(c = '/' ∧ rest.head? = some '*')) :
    stripBlockComments (c :: rest) = c :: stripBlockComments rest := by
  rw [stripBlockComments]
  simp [h]

theorem stripBC_append (xs ys : List Char) (h : ∀ c ∈ xs, c ≠ '/') :
    stripBlockComments (xs ++ ys) = xs ++ stripBlockComments ys := by
  induction xs with
  | nil => simp
  | cons c rest ih =>
    have hc := h c (List.mem_cons_self c rest)
    rw [List.cons_append, stripBC_cons (by simp [hc]),
      ih (fun x hx => h x (List.mem_cons_of_mem _ hx))]
    rfl

theorem findCloseBC_append (body ys : List Char) (h : ∀ c ∈ body, c ≠ '/') :
    findCloseBC (body ++ '*' :: '/' :: ys) = some ys := by
  induction body with
  | nil => simp [findCloseBC]
  | cons c bs ih =>
    have hbs : ∀ x ∈ bs, x ≠ '/' := fun x hx => h x (List.mem_cons_of_mem _ hx)
    rw [List.cons_append, findCloseBC, if_neg, ih hbs]
    rintro ⟨_, hh⟩
    cases bs with
    | nil => simp at hh
    | cons b bs2 =>
      simp at hh
      exact hbs b (List.mem_cons_self b bs2) hh

theorem stripBC_block {body ys : List Char} (h : ∀ c ∈ body, c ≠ '/') :
    stripBlockComments ('/' :: '*' :: (body ++ '*' :: '/' :: ys))
      = stripBlockComments ys := by
  have hfc := findCloseBC_append body ys h
  rw [stripBlockComments]
  split
  · split
    · rename_i a heq
      simp only [List.drop_succ_cons, List.drop_zero] at heq
      rw [hfc] at heq
      injection heq with h1
      subst h1
      rfl
    · rename_i heq
      simp only [List.drop_succ_cons, List.drop_zero] at heq
      rw [hfc] at heq
      simp at heq
  · rename_i hcond
    exact absurd ⟨rfl, rfl⟩ hcond

/-! ### Segmented source text

A source text is "well delimited" when it splits into plain code, complete
double- and single-quoted literals, complete line comments and complete block
comments.  `Seg` names the five kinds; `renderAll` rebuilds the character
stream; `cleanAll` is what the four stripping passes leave of it.  This makes
"a position inside / outside a string literal or comment" precise. -/

inductive Seg : Type
  | code (s : List Char)
  | dstr (s : List Char)
  | sstr (s : List Char)
  | lineC (s : List Char)
  | blockC (s : List Char)

def Seg.render : Seg → List Char
  | .code s => s
  | .dstr s => dquote :: (s ++ [dquote])
  | .sstr s => squote :: (s ++ [squote])
  | .lineC s => '/' :: '/' :: (s ++ ['\n'])
  | .blockC s => '/' :: '*' :: (s ++ ['*', '/'])

/-- After stripping double-quoted literals. -/
def Seg.stage1 : Seg → List Char
  | .code s => s
  | .dstr _ => [dquote, dquote]
  | .sstr s => squote :: (s ++ [squote])
  | .lineC s => '/' :: '/' :: (s ++ ['\n'])
  | .blockC s => '/' :: '*' :: (s ++ ['*', '/'])

/-- After also stripping single-quoted literals. -/
def Seg.stage2 : Seg → List Char
  | .code s => s
  | .dstr _ => [dquote, dquote]
  | .sstr _ => [squote, squote]
  | .lineC s => '/' :: '/' :: (s ++ ['\n'])
  | .blockC s => '/' :: '*' :: (s ++ ['*', '/'])

/-- After also stripping line comments. -/
def Seg.stage3 : Seg → List Char
  | .code s => s
  | .dstr _ => [dquote, dquote]
  | .sstr _ => [squote, squote]
  | .lineC _ => ['\n']
  | .blockC s => '/' :: '*' :: (s ++ ['*', '/'])

/-- After all four passes. -/
def Seg.cleanRender : Seg → List Char
  | .code s => s
  | .dstr _ => [dquote, dquote]
  | .sstr _ => [squote, squote]
  | .lineC _ => ['\n']
  | .blockC _ => []

def chFree (bad : Char) (l : List Char) : Bool :=
  l.all (fun c => !(c == bad))

theorem chFree_forall {bad : Char} {l : List Char} (h : chFree bad l = true) :
    ∀ c ∈ l, c ≠ bad := by
  intro c hc
  have := List.all_eq_true.mp h c hc
  simpa using this

/-- Per-segment side conditions under which the four passes, run in the
script's order, treat the segment as intended: bodies carry no quote
characters that the earlier passes would mispair, line-comment bodies carry
no newline, block-comment bodies no slash, and code carries no quote or
slash and is nonempty. -/
def wfSeg : Seg → Bool
  | .code s => !s.isEmpty && chFree dquote s && chFree squote s && chFree '/' s
  | .dstr s => chFree dquote s
  | .sstr s => chFree dquote s && chFree squote s
  | .lineC s => chFree dquote s && chFree squote s && chFree '\n' s
  | .blockC s => chFree dquote s && chFree squote s && chFree '/' s

def noSlashStart : Seg → Bool
  | .lineC _ => false
  | .blockC _ => false
  | _ => true

def isBlock : Seg → Bool
  | .blockC _ => true
  | _ => false

def okAfter : List Seg → Bool
  | [] => true
  | t :: _ => noSlashStart t

/-- Well-delimited segment list: each segment well formed, and no block
comment directly followed by a segment whose text starts with a slash (which
would glue `*/` and `//`/`/*` together across the boundary). -/
def wfSegs : List Seg → Bool
  | [] => true
  | s :: rest => wfSeg s && (!isBlock s || okAfter rest) && wfSegs rest

def renderAll (l : List Seg) : List Char := (l.map Seg.render).flatten

def stage1All (l : List Seg) : List Char := (l.map Seg.stage1).flatten

def stage2All (l : List Seg) : List Char := (l.map Seg.stage2).flatten

def stage3All (l : List Seg) : List Char := (l.map Seg.stage3).flatten

def cleanAll (l : List Seg) : List Char := (l.map Seg.cleanRender).flatten

theorem wfSegs_cons {s : Seg} {rest : List Seg} (h : wfSegs (s :: rest) = true) :
    wfSeg s = true ∧ (isBlock s = true → okAfter rest = true) ∧ wfSegs rest = true := by
  have h' := h
  simp only [wfSegs, Bool.and_eq_true] at h'
  refine ⟨h'.1.1, ?_, h'.2⟩
  intro hb
  have h2 := h'.1.2
  rw [hb] at h2
  simpa using h2

theorem wfSegs_cons_of {s : Seg} {rest : List Seg} (h1 : wfSeg s = true)
    (h2 : isBlock s = true → okAfter rest = true) (h3 : wfSegs rest = true) :
    wfSegs (s :: rest) = true := by
  simp only [wfSegs, Bool.and_eq_true]
  refine ⟨⟨h1, ?_⟩, h3⟩
  cases hb : isBlock s
  · simp
  · simp [h2 hb]

theorem wfSeg_code {s : List Char} (h : wfSeg (Seg.code s) = true) :
    s ≠ [] ∧ (∀ c ∈ s, c ≠ dquote) ∧ (∀ c ∈ s, c ≠ squote) ∧ ∀ c ∈ s, c ≠ '/' := by
  simp only [wfSeg, Bool.and_eq_true] at h
  refine ⟨?_, chFree_forall h.1.1.2, chFree_forall h.1.2, chFree_forall h.2⟩
  have := h.1.1.1
  simp [List.isEmpty_iff] at this
  exact this

theorem wfSeg_dstr {s : List Char} (h : wfSeg (Seg.dstr s) = true) :
    ∀ c ∈ s, c ≠ dquote :=
  chFree_forall h

theorem wfSeg_sstr {s : List Char} (h : wfSeg (Seg.sstr s) = true) :
    (∀ c ∈ s, c ≠ dquote) ∧ ∀ c ∈ s, c ≠ squote := by
  simp only [wfSeg, Bool.and_eq_true] at h
  exact ⟨chFree_forall h.1, chFree_forall h.2⟩

theorem wfSeg_lineC {s : List Char} (h : wfSeg (Seg.lineC s) = true) :
    (∀ c ∈ s, c ≠ dquote) ∧ (∀ c ∈ s, c ≠ squote) ∧ ∀ c ∈ s, c ≠ '\n' := by
  simp only [wfSeg, Bool.and_eq_true] at h
  exact ⟨chFree_forall h.1.1, chFree_forall h.1.2, chFree_forall h.2⟩

theorem wfSeg_blockC {s : List Char} (h : wfSeg (Seg.blockC s) = true) :
    (∀ c ∈ s, c ≠ dquote) ∧ (∀ c ∈ s, c ≠ squote) ∧ ∀ c ∈ s, c ≠ '/' := by
  simp only [wfSeg, Bool.and_eq_true] at h
  exact ⟨chFree_forall h.1.1, chFree_forall h.1.2, chFree_forall h.2⟩

theorem renderAll_cons (s : Seg) (rest : List Seg) :
    renderAll (s :: rest) = Seg.render s ++ renderAll rest := by
  simp [renderAll]

theorem stage1All_cons (s : Seg) (rest : List Seg) :
    stage1All (s :: rest) = Seg.stage1 s ++ stage1All rest := by
  simp [stage1All]

theorem stage2All_cons (s : Seg) (rest : List Seg) :
    stage2All (s :: rest) = Seg.stage2 s ++ stage2All rest := by
  simp [stage2All]

theorem stage3All_cons (s : Seg) (rest : List Seg) :
    stage3All (s :: rest) = Seg.stage3 s ++ stage3All rest := by
  simp [stage3All]

theorem cleanAll_cons (s : Seg) (rest : List Seg) :
    cleanAll (s :: rest) = Seg.cleanRender s ++ cleanAll rest := by
  simp [cleanAll]

theorem cleanAll_append (a b : List Seg) :
    cleanAll (a ++ b) = cleanAll a ++ cleanAll b := by
  simp [cleanAll]

/-- Pass 1 (double-quote stripping) over a well-delimited text: literal
bodies collapse, everything else survives. -/
theorem pass1 (l : List Seg) (h : wfSegs l = true) :
    stripQuoted dquote (renderAll l) = stage1All l := by
  induction l with
  | nil => simp [renderAll, stage1All, stripQuoted]
  | cons s rest ih =>
    obtain ⟨h1, _, h3⟩ := wfSegs_cons h
    have ihr := ih h3
    rw [renderAll_cons, stage1All_cons]
    cases s with
    | code s =>
      obtain ⟨_, hdq, _, _⟩ := wfSeg_code h1
      simp only [Seg.render, Seg.stage1]
      rw [stripQuoted_append _ _ hdq, ihr]
    | dstr s =>
      have hdq := wfSeg_dstr h1
      simp only [Seg.render, Seg.stage1]
      have hsh : (dquote :: (s ++ [dquote])) ++ renderAll rest
          = dquote :: (s ++ dquote :: renderAll rest) := by simp
      rw [hsh, stripQuoted_quote hdq, ihr]
      rfl
    | sstr s =>
      have hpre : ∀ c ∈ squote :: (s ++ [squote]), c ≠ dquote := by
        intro c hc
        simp only [List.mem_cons, List.mem_append, List.not_mem_nil, or_false] at hc
        rcases hc with rfl | hc | rfl
        · decide
        · exact (wfSeg_sstr h1).1 c hc
        · decide
      simp only [Seg.render, Seg.stage1]
      rw [stripQuoted_append _ _ hpre, ihr]
    | lineC s =>
      have hpre : ∀ c ∈ '/' :: '/' :: (s ++ ['\n']), c ≠ dquote := by
        intro c hc
        simp only [List.mem_cons, List.mem_append, List.not_mem_nil, or_false] at hc
        rcases hc with rfl | rfl | hc | rfl
        · decide
        · decide
        · exact (wfSeg_lineC h1).1 c hc
        · decide
      simp only [Seg.render, Seg.stage1]
      rw [stripQuoted_append _ _ hpre, ihr]
    | blockC s =>
      have hpre : ∀ c ∈ '/' :: '*' :: (s ++ ['*', '/']), c ≠ dquote := by
        intro c hc
        simp only [List.mem_cons, List.mem_append, List.not_mem_nil, or_false] at hc
        rcases hc with rfl | rfl | hc | rfl | rfl
        · decide
        · decide
        · exact (wfSeg_blockC h1).1 c hc
        · decide
        · decide
      simp only [Seg.render, Seg.stage1]
      rw [stripQuoted_append _ _ hpre, ihr]

/-- Pass 2 (single-quote stripping). -/
theorem pass2 (l : List Seg) (h : wfSegs l = true) :
    stripQuoted squote (stage1All l) = stage2All l := by
  induction l with
  | nil => simp [stage1All, stage2All, stripQuoted]
  | cons s rest ih =>
    obtain ⟨h1, _, h3⟩ := wfSegs_cons h
    have ihr := ih h3
    rw [stage1All_cons, stage2All_cons]
    cases s with
    | code s =>
      obtain ⟨_, _, hsq, _⟩ := wfSeg_code h1
      simp only [Seg.stage1, Seg.stage2]
      rw [stripQuoted_append _ _ hsq, ihr]
    | dstr s =>
      simp only [Seg.stage1, Seg.stage2]
      rw [stripQuoted_append [dquote, dquote] _ (by decide), ihr]
    | sstr s =>
      have hsq := (wfSeg_sstr h1).2
      simp only [Seg.stage1, Seg.stage2]
      have hsh : (squote :: (s ++ [squote])) ++ stage1All rest
          = squote :: (s ++ squote :: stage1All rest) := by simp
      rw [hsh, stripQuoted_quote hsq, ihr]
      rfl
    | lineC s =>
      have hpre : ∀ c ∈ '/' :: '/' :: (s ++ ['\n']), c ≠ squote := by
        intro c hc
        simp only [List.mem_cons, List.mem_append, List.not_mem_nil, or_false] at hc
        rcases hc with rfl | rfl | hc | rfl
        · decide
        · decide
        · exact (wfSeg_lineC h1).2.1 c hc
        · decide
      simp only [Seg.stage1, Seg.stage2]
      rw [stripQuoted_append _ _ hpre, ihr]
    | blockC s =>
      have hpre : ∀ c ∈ '/' :: '*' :: (s ++ ['*', '/']), c ≠ squote := by
        intro c hc
        simp only [List.mem_cons, List.mem_append, List.not_mem_nil, or_false] at hc
        rcases hc with rfl | rfl | hc | rfl | rfl
        · decide
        · decide
        · exact (wfSeg_blockC h1).2.1 c hc
        · decide
        · decide
      simp only [Seg.stage1, Seg.stage2]
      rw [stripQuoted_append _ _ hpre, ihr]

theorem stage2_head_ne_slash (l : List Seg) (hw : wfSegs l = true)
    (hok : okAfter l = true) :
    (stage2All l).head? ≠ some '/' := by
  cases l with
  | nil => simp [stage2All]
  | cons t rest =>
    obtain ⟨h1, _, _⟩ := wfSegs_cons hw
    rw [stage2All_cons]
    cases t with
    | code s =>
      obtain ⟨hne, _, _, hslash⟩ := wfSeg_code h1
      cases s with
      | nil => exact absurd rfl hne
      | cons c cs =>
        simp only [Seg.stage2, List.cons_append, List.head?_cons]
        intro hc
        injection hc with hc
        exact hslash c (List.mem_cons_self _ _) hc
    | dstr s =>
      simp only [Seg.stage2, List.cons_append, List.head?_cons]
      decide
    | sstr s =>
      simp only [Seg.stage2, List.cons_append, List.head?_cons]
      decide
    | lineC s =>
      simp [okAfter, noSlashStart] at hok
    | blockC s =>
      simp [okAfter, noSlashStart] at hok

/-- Pass 3 (line-comment stripping): a line comment collapses to its
newline; a block comment's text is untouched because its slash never pairs
with a second slash. -/
theorem pass3 (l : List Seg) (h : wfSegs l = true) :
    stripLineComments (stage2All l) = stage3All l := by
  induction l with
  | nil => simp [stage2All, stage3All, stripLineComments]
  | cons s rest ih =>
    obtain ⟨h1, h2, h3⟩ := wfSegs_cons h
    have ihr := ih h3
    rw [stage2All_cons, stage3All_cons]
    cases s with
    | code s =>
      obtain ⟨_, _, _, hslash⟩ := wfSeg_code h1
      simp only [Seg.stage2, Seg.stage3]
      rw [stripLC_append _ _ hslash, ihr]
    | dstr s =>
      simp only [Seg.stage2, Seg.stage3]
      rw [stripLC_append [dquote, dquote] _ (by decide), ihr]
    | sstr s =>
      simp only [Seg.stage2, Seg.stage3]
      rw [stripLC_append [squote, squote] _ (by decide), ihr]
    | lineC s =>
      obtain ⟨_, _, hnl⟩ := wfSeg_lineC h1
      simp only [Seg.stage2, Seg.stage3]
      have hsh : ('/' :: '/' :: (s ++ ['\n'])) ++ stage2All rest
          = '/' :: '/' :: (s ++ '\n' :: stage2All rest) := by simp
      rw [hsh, stripLC_lineC hnl, ihr]
      rfl
    | blockC s =>
      obtain ⟨_, _, hslash⟩ := wfSeg_blockC h1
      have hhd := stage2_head_ne_slash rest h3 (h2 rfl)
      simp only [Seg.stage2, Seg.stage3]
      have hsh : ('/' :: '*' :: (s ++ ['*', '/'])) ++ stage2All rest
          = '/' :: '*' :: (s ++ '*' :: '/' :: stage2All rest) := by simp
      rw [hsh]
      rw [stripLC_cons (by
        rintro ⟨-, hh⟩
        rw [List.head?_cons] at hh
        exact absurd (Option.some.inj hh) (by decide))]
      rw [stripLC_cons (by rintro ⟨hc, -⟩; exact absurd hc (by decide))]
      rw [stripLC_append _ _ hslash]
      rw [stripLC_cons (by rintro ⟨hc, -⟩; exact absurd hc (by decide))]
      rw [stripLC_cons (by rintro ⟨-, hh⟩; exact hhd hh)]
      rw [ihr]
      simp

/-- Pass 4 (block-comment stripping): each block comment disappears
entirely; nothing else contains a slash any more. -/
theorem pass4 (l : List Seg) (h : wfSegs l = true) :
    stripBlockComments (stage3All l) = cleanAll l := by
  induction l with
  | nil => simp [stage3All, cleanAll, stripBlockComments]
  | cons s rest ih =>
    obtain ⟨h1, _, h3⟩ := wfSegs_cons h
    have ihr := ih h3
    rw [stage3All_cons, cleanAll_cons]
    cases s with
    | code s =>
      obtain ⟨_, _, _, hslash⟩ := wfSeg_code h1
      simp only [Seg.stage3, Seg.cleanRender]
      rw [stripBC_append _ _ hslash, ihr]
    | dstr s =>
      simp only [Seg.stage3, Seg.cleanRender]
      rw [stripBC_append [dquote, dquote] _ (by decide), ihr]
    | sstr s =>
      simp only [Seg.stage3, Seg.cleanRender]
      rw [stripBC_append [squote, squote] _ (by decide), ihr]
    | lineC s =>
      simp only [Seg.stage3, Seg.cleanRender]
      rw [stripBC_append ['\n'] _ (by decide), ihr]
    | blockC s =>
      obtain ⟨_, _, hslash⟩ := wfSeg_blockC h1
      simp only [Seg.stage3, Seg.cleanRender]
      have hsh : ('/' :: '*' :: (s ++ ['*', '/'])) ++ stage3All rest
          = '/' :: '*' :: (s ++ '*' :: '/' :: stage3All rest) := by simp
      rw [hsh, stripBC_block hslash, ihr]
      rfl

/-- The master lemma for the syntax check: on a well-delimited text, the
script's four-pass cleaning yields exactly the per-segment clean rendering
(string bodies collapsed, comments gone). -/
theorem clean_content_render (l : List Seg) (h : wfSegs l = true) :
    clean_content (String.mk (renderAll l)) = cleanAll l := by
  have hd : (String.mk (renderAll l)).data = renderAll l := rfl
  unfold clean_content
  rw [hd, pass1 l h, pass2 l h, pass3 l h, pass4 l h]

/-! ### The six checks of `validate_project` -/

def missing_sections (content : String) : List String :=
  required_sections.filter (fun s => !(strContains content s))

def sectionIssueMsg (missing : List String) : String :=
  "❌ Missing project sections: " ++ pyListRepr missing

def sectionIssuesOf (content : String) : List String :=
  if (missing_sections content).isEmpty then []
  else [sectionIssueMsg (missing_sections content)]

def isMainPath (p : String) : Bool :=
  !(strContains p "/Tests/") && !(strContains p "/JJYWaveTests/")

def isTestPath (p : String) : Bool :=
  strContains p "/Tests/" || strContains p "/JJYWaveTests/"

def main_swift (fs : FS) : List String :=
  fs.swiftFiles.filter isMainPath

def test_swift (fs : FS) : List String :=
  fs.swiftFiles.filter isTestPath

def mainCountMsg (found : Nat) : String :=
  "❌ Expected " ++ toString expected_main_swift ++ " main Swift files, found " ++ toString found

def testCountMsg (found : Nat) : String :=
  "❌ Expected " ++ toString expected_test_swift ++ " test Swift files, found " ++ toString found

def mainCountIssues (fs : FS) : List String :=
  if (main_swift fs).length ≠ expected_main_swift then [mainCountMsg (main_swift fs).length]
  else []

def testCountIssues (fs : FS) : List String :=
  if (test_swift fs).length ≠ expected_test_swift then [testCountMsg (test_swift fs).length]
  else []

def missing_dirs (fs : FS) : List String :=
  required_dirs.filter (fun d => !(fs.pathExists d))

def dirIssueMsg (missing : List String) : String :=
  "❌ Missing directories: " ++ pyListRepr missing

def dirIssuesOf (fs : FS) : List String :=
  if (missing_dirs fs).isEmpty then [] else [dirIssueMsg (missing_dirs fs)]

def missing_files (fs : FS) : List String :=
  required_files.filter (fun f => !(fs.pathExists f))

def fileIssueMsg (missing : List String) : String :=
  "❌ Missing resource files: " ++ pyListRepr missing

def fileIssuesOf (fs : FS) : List String :=
  if (missing_files fs).isEmpty then [] else [fileIssueMsg (missing_files fs)]

/-- Check 6, for a single critical file: skipped silently when the path does
not exist; a read failure is captured as data; otherwise the stripped brace
counts are compared. -/
def fileCheckOf (fs : FS) (file_path : String) : List String :=
  if fs.pathExists file_path then
    match fs.read file_path with
    | Except.ok content =>
      if (clean_content content).count openBrace ≠ (clean_content content).count closeBrace
      then [file_path ++ ": Unbalanced braces"]
      else []
    | Except.error e => [file_path ++ ": Read error - " ++ e]
  else []

def syntaxIssuesOf (fs : FS) : List String :=
  (critical_files.map (fileCheckOf fs)).flatten

def syntaxIssueMsg (syntax_issues : List String) : String :=
  "❌ Syntax issues in critical files: " ++ pyListRepr syntax_issues

def syntaxIssueWrapOf (fs : FS) : List String :=
  if (syntaxIssuesOf fs).isEmpty then [] else [syntaxIssueMsg (syntaxIssuesOf fs)]

/-- `validate_project(project_root)`: the ordered issue list.  The two
manifest checks short-circuit; the remaining five checks each contribute
their issues in the script's append order. -/
def validate_project (fs : FS) : List String :=
  if fs.pathExists pbxprojPath then
    match fs.read pbxprojPath with
    | Except.error e => ["❌ Cannot read project.pbxproj: " ++ e]
    | Except.ok pbx_content =>
      sectionIssuesOf pbx_content ++ mainCountIssues fs ++ testCountIssues fs
        ++ dirIssuesOf fs ++ fileIssuesOf fs ++ syntaxIssueWrapOf fs
  else ["❌ project.pbxproj missing"]

/-- `main()`: exit 1 when the manifest directory is absent from the current
directory, otherwise 0 iff `validate_project` found no issues. -/
def main (fs : FS) : Nat :=
  if fs.pathExists projectDirName then
    if (validate_project fs).isEmpty then 0 else 1
  else 1

/-! ### Helper lemmas and concrete filesystem states -/

theorem fileCheckOf_absent {fs : FS} {p : String} (h : fs.pathExists p = false) :
    fileCheckOf fs p = [] := by
  simp [fileCheckOf, h]

theorem flatten_map_filter (F : String → List String) (P : String → Bool)
    (l : List String) (h : ∀ x ∈ l, P x = false → F x = []) :
    (l.map F).flatten = ((l.filter P).map F).flatten := by
  induction l with
  | nil => rfl
  | cons a t ih =>
    have ht : ∀ x ∈ t, P x = false → F x = [] :=
      fun x hx => h x (List.mem_cons_of_mem _ hx)
    cases hp : P a with
    | false => simp [List.filter, hp, h a (List.mem_cons_self _ _) hp, ih ht]
    | true => simp [List.filter, hp, ih ht]

/-- An empty filesystem: nothing exists, nothing is readable. -/
def fsEmpty : FS :=
  ⟨fun _ => none, fun _ => Except.error "err", []⟩

/-- A filesystem holding only the manifest file, which cannot be read. -/
def fsReadFail : FS :=
  ⟨fun p => if p = pbxprojPath then some FType.file else none,
   fun _ => Except.error "Permission denied",
   []⟩

/-- A filesystem holding a readable manifest and a single main-category
Swift file. -/
def fsCounts : FS :=
  ⟨fun p => if p = pbxprojPath then some FType.file else none,
   fun p => if p = pbxprojPath then Except.ok "content" else Except.error "err",
   ["/work/App/A.swift"]⟩

/-- A filesystem in which every required resource-file path is occupied by a
directory. -/
def fsDirs : FS :=
  ⟨fun p => if required_files.contains p then some FType.dir else none,
   fun _ => Except.error "err",
   []⟩

/-! ### The claims -/

/-- C1: For every (consistent) filesystem state, the process exit status is 0
iff the issue list returned by `validate_project` is empty, and 1 iff it is
nonempty — including the precondition failure where the manifest directory is
absent, in which case `validate_project` would report the manifest as
missing. -/
theorem claim_C1 (fs : FS)
    (hcons : fs.pathExists projectDirName = false → fs.pathExists pbxprojPath = false) :
    (main fs = 0 ↔ validate_project fs = []) ∧ (main fs = 1 ↔ validate_project fs ≠ []) := by
  by_cases hd : fs.pathExists projectDirName = true
  · by_cases he : validate_project fs = []
    · constructor <;> simp [main, hd, he]
    · constructor <;> simp [main, hd, he, List.isEmpty_iff]
  · have hpbx : fs.pathExists pbxprojPath = false := by
      apply hcons
      simpa using hd
    have hv : validate_project fs = ["❌ project.pbxproj missing"] := by
      simp [validate_project, hpbx]
    constructor <;> simp [main, hd, hv]

theorem claim_C1_witness :
    (fsEmpty.pathExists projectDirName = false → fsEmpty.pathExists pbxprojPath = false)
    ∧ ((main fsEmpty = 0 ↔ validate_project fsEmpty = [])
       ∧ (main fsEmpty = 1 ↔ validate_project fsEmpty ≠ [])) :=
  ⟨fun _ => rfl, claim_C1 fsEmpty (fun _ => rfl)⟩

/-- C2: Whenever the manifest file does not exist, `validate_project` returns
exactly the single manifest-missing issue; no other check contributes
anything, whatever the rest of the filesystem looks like. -/
theorem claim_C2 (fs : FS) (h : fs.pathExists pbxprojPath = false) :
    validate_project fs = ["❌ project.pbxproj missing"] := by
  simp [validate_project, h]

theorem claim_C2_witness :
    fsEmpty.pathExists pbxprojPath = false
    ∧ validate_project fsEmpty = ["❌ project.pbxproj missing"] :=
  ⟨rfl, claim_C2 fsEmpty rfl⟩

/-- C3: With a readable manifest, the issue list decomposes into the five
independent non-fatal checks in order; the main-file count check emits its own
issue (stating expected and actual) exactly when the main count differs from
17, and the test-file count check emits its own issue exactly when the test
count differs from 20, neither check suppressing the other. -/
theorem claim_C3 (fs : FS) (c : String)
    (h1 : fs.pathExists pbxprojPath = true)
    (h2 : fs.read pbxprojPath = Except.ok c) :
    validate_project fs
      = sectionIssuesOf c ++ mainCountIssues fs ++ testCountIssues fs
        ++ dirIssuesOf fs ++ fileIssuesOf fs ++ syntaxIssueWrapOf fs
    ∧ ((main_swift fs).length ≠ expected_main_swift →
        mainCountIssues fs = [mainCountMsg (main_swift fs).length])
    ∧ ((main_swift fs).length = expected_main_swift → mainCountIssues fs = [])
    ∧ ((test_swift fs).length ≠ expected_test_swift →
        testCountIssues fs = [testCountMsg (test_swift fs).length])
    ∧ ((test_swift fs).length = expected_test_swift → testCountIssues fs = []) := by
  refine ⟨by simp [validate_project, h1, h2], ?_, ?_, ?_, ?_⟩ <;>
    intro h <;> simp [mainCountIssues, testCountIssues, h]

theorem claim_C3_witness :
    fsCounts.pathExists pbxprojPath = true
    ∧ fsCounts.read pbxprojPath = Except.ok "content"
    ∧ (main_swift fsCounts).length = 1
    ∧ (test_swift fsCounts).length = 0
    ∧ mainCountIssues fsCounts = [mainCountMsg (main_swift fsCounts).length]
    ∧ testCountIssues fsCounts = [testCountMsg (test_swift fsCounts).length]
    ∧ mainCountMsg 1 = "❌ Expected 17 main Swift files, found 1" :=
  ⟨by decide, rfl, by decide, by decide,
   (claim_C3 fsCounts "content" (by decide) rfl).2.1 (by decide),
   (claim_C3 fsCounts "content" (by decide) rfl).2.2.2.1 (by decide),
   by decide⟩

/-- C5: With a readable manifest, the required-directory check contributes at
most one issue: the missing list is exactly the required directories that do
not exist, a nonempty missing list yields the single issue listing it, an
empty one yields no issue, and the check's contribution appears in the
returned issue list. -/
theorem claim_C5 (fs : FS) (c : String)
    (h1 : fs.pathExists pbxprojPath = true)
    (h2 : fs.read pbxprojPath = Except.ok c) :
    (∀ d : String, d ∈ missing_dirs fs ↔ d ∈ required_dirs ∧ fs.pathExists d = false)
    ∧ (missing_dirs fs ≠ [] → dirIssuesOf fs = [dirIssueMsg (missing_dirs fs)])
    ∧ (missing_dirs fs = [] → dirIssuesOf fs = [])
    ∧ (dirIssuesOf fs).length ≤ 1
    ∧ validate_project fs
      = sectionIssuesOf c ++ mainCountIssues fs ++ testCountIssues fs
        ++ dirIssuesOf fs ++ fileIssuesOf fs ++ syntaxIssueWrapOf fs := by
  refine ⟨?_, ?_, ?_, ?_, by simp [validate_project, h1, h2]⟩
  · intro d
    simp [missing_dirs, List.mem_filter]
  · intro h
    simp [dirIssuesOf, List.isEmpty_iff, h]
  · intro h
    simp [dirIssuesOf, List.isEmpty_iff, h]
  · by_cases h : (missing_dirs fs).isEmpty <;> simp [dirIssuesOf, h]

theorem claim_C5_witness :
    fsCounts.pathExists pbxprojPath = true
    ∧ fsCounts.read pbxprojPath = Except.ok "content"
    ∧ missing_dirs fsCounts = required_dirs
    ∧ dirIssuesOf fsCounts = [dirIssueMsg (missing_dirs fsCounts)] :=
  ⟨by decide, rfl, by decide,
   (claim_C5 fsCounts "content" (by decide) rfl).2.1 (by decide)⟩

/-- C6: For every manifest content, the missing-section list is exactly the
required section markers that are not substrings of the content; at least one
missing marker yields the single issue listing them all, all present yields no
issue, and the check contributes at most one issue. -/
theorem claim_C6 (content : String) :
    (∀ s : String, s ∈ missing_sections content
        ↔ s ∈ required_sections ∧ strContains content s = false)
    ∧ (missing_sections content ≠ [] →
        sectionIssuesOf content = [sectionIssueMsg (missing_sections content)])
    ∧ (missing_sections content = [] → sectionIssuesOf content = [])
    ∧ (sectionIssuesOf content).length ≤ 1 := by
  refine ⟨?_, ?_, ?_, ?_⟩
  · intro s
    simp [missing_sections, List.mem_filter]
  · intro h
    simp [sectionIssuesOf, List.isEmpty_iff, h]
  · intro h
    simp [sectionIssuesOf, List.isEmpty_iff, h]
  · by_cases h : (missing_sections content).isEmpty <;> simp [sectionIssuesOf, h]

theorem claim_C6_witness :
    missing_sections "" = required_sections
    ∧ sectionIssuesOf "" = [sectionIssueMsg (missing_sections "")] :=
  ⟨by decide, (claim_C6 "").2.1 (by decide)⟩

/-- C7: Whenever the manifest file exists but reading it fails,
`validate_project` returns exactly one issue carrying the underlying error
message, and nothing else. -/
theorem claim_C7 (fs : FS) (e : String)
    (h1 : fs.pathExists pbxprojPath = true)
    (h2 : fs.read pbxprojPath = Except.error e) :
    validate_project fs = ["❌ Cannot read project.pbxproj: " ++ e] := by
  simp [validate_project, h1, h2]

theorem claim_C7_witness :
    fsReadFail.pathExists pbxprojPath = true
    ∧ fsReadFail.read pbxprojPath = Except.error "Permission denied"
    ∧ validate_project fsReadFail
        = ["❌ Cannot read project.pbxproj: " ++ "Permission denied"] :=
  ⟨by decide, rfl, claim_C7 fsReadFail "Permission denied" (by decide) rfl⟩

/-- C8: A critical file that does not exist is silently skipped by the
brace-balance check: it contributes the empty list, and the aggregated syntax
issues are those of the existing critical files alone. -/
theorem claim_C8 (fs : FS) (f : String) (hmem : f ∈ critical_files)
    (habs : fs.pathExists f = false) :
    fileCheckOf fs f = []
    ∧ syntaxIssuesOf fs
      = ((critical_files.filter (fun g => fs.pathExists g)).map (fileCheckOf fs)).flatten := by
  refine ⟨fileCheckOf_absent habs, ?_⟩
  exact flatten_map_filter (fileCheckOf fs) (fun g => fs.pathExists g) critical_files
    (fun x _ hx => fileCheckOf_absent hx)

theorem claim_C8_witness :
    "App/AppDelegate.swift" ∈ critical_files
    ∧ fsEmpty.pathExists "App/AppDelegate.swift" = false
    ∧ fileCheckOf fsEmpty "App/AppDelegate.swift" = [] :=
  ⟨by decide, rfl, (claim_C8 fsEmpty "App/AppDelegate.swift" (by decide) rfl).1⟩

/-- C9: The test-path predicate and the main-path predicate are pointwise
negations of each other, so every enumerated Swift file lands in exactly one
partition and the two counts always sum to the total. -/
theorem claim_C9 :
    (∀ p : String, isMainPath p = !(isTestPath p))
    ∧ ∀ fs : FS, (main_swift fs).length + (test_swift fs).length = fs.swiftFiles.length := by
  have hpt : ∀ p : String, isMainPath p = !(isTestPath p) := by
    intro p
    simp [isMainPath, isTestPath]
  refine ⟨hpt, ?_⟩
  intro fs
  have hmain : main_swift fs = fs.swiftFiles.filter (fun p => !(isTestPath p)) := by
    apply List.filter_congr
    intro a _
    exact hpt a
  rw [hmain, Nat.add_comm]
  exact (List.length_eq_length_filter_add isTestPath).symm

/-- C10: The resource-file and directory checks test only path existence, not
file type: two filesystems agreeing on which paths exist produce identical
resource-file and directory issues, and a directory occupying a required
resource-file path counts as present, so it is never listed as missing and —
when every required path is occupied — no resource-file issue is produced. -/
theorem claim_C10 :
    (∀ fs fsB : FS, (∀ q : String, (fs.entry q).isSome = (fsB.entry q).isSome) →
      fileIssuesOf fs = fileIssuesOf fsB ∧ dirIssuesOf fs = dirIssuesOf fsB)
    ∧ (∀ (fs : FS) (p : String), p ∈ required_files → fs.entry p = some FType.dir →
      p ∉ missing_files fs
      ∧ ((∀ q ∈ required_files, fs.pathExists q = true) → fileIssuesOf fs = [])) := by
  constructor
  · intro fs fsB hag
    have hexists : ∀ q : String, fs.pathExists q = fsB.pathExists q := by
      intro q
      simp [FS.pathExists, hag q]
    have hmf : missing_files fs = missing_files fsB := by
      apply List.filter_congr
      intro a _
      simp [hexists a]
    have hmd : missing_dirs fs = missing_dirs fsB := by
      apply List.filter_congr
      intro a _
      simp [hexists a]
    constructor
    · simp [fileIssuesOf, hmf]
    · simp [dirIssuesOf, hmd]
  · intro fs p hp hd
    have hex : fs.pathExists p = true := by
      simp [FS.pathExists, hd]
    constructor
    · simp [missing_files, List.mem_filter, hex]
    · intro hall
      have : missing_files fs = [] := by
        simp only [missing_files, List.filter_eq_nil_iff]
        intro a ha
        simp [hall a ha]
      simp [fileIssuesOf, this]

theorem claim_C10_witness :
    "README.md" ∈ required_files
    ∧ fsDirs.entry "README.md" = some FType.dir
    ∧ "README.md" ∉ missing_files fsDirs
    ∧ fileIssuesOf fsDirs = [] :=
  ⟨by decide, by decide,
   (claim_C10.2 fsDirs "README.md" (by decide) (by decide)).1,
   (claim_C10.2 fsDirs "README.md" (by decide) (by decide)).2 (by decide)⟩

/-! ### Claim C4: the brace check and string/comment stripping -/

theorem wfSegs_middle {pre post : List Seg} {s : Seg}
    (h : wfSegs (pre ++ s :: post) = true) : wfSeg s = true := by
  induction pre with
  | nil => exact (wfSegs_cons h).1
  | cons p pre2 ih => exact ih (wfSegs_cons h).2.2

theorem okAfter_replace {post : List Seg} {s sB : Seg} (pre : List Seg)
    (hstart : noSlashStart sB = noSlashStart s) :
    okAfter (pre ++ sB :: post) = okAfter (pre ++ s :: post) := by
  cases pre with
  | nil => simp [okAfter, hstart]
  | cons p pre2 => simp [okAfter]

theorem wfSegs_replace (s sB : Seg)
    (hseg : wfSeg sB = true)
    (hblock : isBlock sB = isBlock s)
    (hstart : noSlashStart sB = noSlashStart s) :
    ∀ pre post : List Seg,
      wfSegs (pre ++ s :: post) = true → wfSegs (pre ++ sB :: post) = true := by
  intro pre
  induction pre with
  | nil =>
    intro post h
    obtain ⟨_, h2, h3⟩ := wfSegs_cons h
    refine wfSegs_cons_of hseg ?_ h3
    intro hb
    rw [hblock] at hb
    exact h2 hb
  | cons p pre2 ih =>
    intro post h
    rw [List.cons_append] at h
    obtain ⟨h1, h2, h3⟩ := wfSegs_cons h
    rw [List.cons_append]
    refine wfSegs_cons_of h1 ?_ (ih post h3)
    intro hb
    rw [okAfter_replace pre2 hstart]
    exact h2 hb

theorem chFree_insert {bad c : Char} {s1 s2 : List Char}
    (h : chFree bad (s1 ++ s2) = true) (hc : c ≠ bad) :
    chFree bad (s1 ++ c :: s2) = true := by
  have h2 := chFree_forall h
  simp only [chFree, List.all_eq_true]
  intro x hx
  simp only [List.mem_append, List.mem_cons] at hx
  rcases hx with hx | rfl | hx
  · simpa using h2 x (List.mem_append_left _ hx)
  · simpa using hc
  · simpa using h2 x (List.mem_append_right _ hx)

theorem wfSeg_code_insert {s1 s2 : List Char}
    (h : wfSeg (Seg.code (s1 ++ s2)) = true) :
    wfSeg (Seg.code (s1 ++ openBrace :: s2)) = true := by
  simp only [wfSeg, Bool.and_eq_true] at h ⊢
  refine ⟨⟨⟨?_, chFree_insert h.1.1.2 (by decide)⟩,
    chFree_insert h.1.2 (by decide)⟩, chFree_insert h.2 (by decide)⟩
  simp [List.isEmpty_iff]

theorem wfSeg_dstr_insert {b1 b2 : List Char}
    (h : wfSeg (Seg.dstr (b1 ++ b2)) = true) :
    wfSeg (Seg.dstr (b1 ++ openBrace :: b2)) = true :=
  chFree_insert h (by decide)

theorem wfSeg_lineC_insert {b1 b2 : List Char}
    (h : wfSeg (Seg.lineC (b1 ++ b2)) = true) :
    wfSeg (Seg.lineC (b1 ++ openBrace :: b2)) = true := by
  simp only [wfSeg, Bool.and_eq_true] at h ⊢
  exact ⟨⟨chFree_insert h.1.1 (by decide), chFree_insert h.1.2 (by decide)⟩,
    chFree_insert h.2 (by decide)⟩

theorem wfSeg_blockC_insert {b1 b2 : List Char}
    (h : wfSeg (Seg.blockC (b1 ++ b2)) = true) :
    wfSeg (Seg.blockC (b1 ++ openBrace :: b2)) = true := by
  simp only [wfSeg, Bool.and_eq_true] at h ⊢
  exact ⟨⟨chFree_insert h.1.1 (by decide), chFree_insert h.1.2 (by decide)⟩,
    chFree_insert h.2 (by decide)⟩

theorem cleanAll_middle (pre post : List Seg) (x : Seg) :
    cleanAll (pre ++ x :: post)
      = cleanAll pre ++ (Seg.cleanRender x ++ cleanAll post) := by
  rw [cleanAll_append, cleanAll_cons]

theorem fileCheckOf_unbalanced {fs : FS} {f : String} {content : String}
    (hex : fs.pathExists f = true) (hread : fs.read f = Except.ok content)
    (hne : (clean_content content).count openBrace
      ≠ (clean_content content).count closeBrace) :
    fileCheckOf fs f = [f ++ ": Unbalanced braces"] := by
  simp [fileCheckOf, hex, hread, hne]

theorem fileCheckOf_balanced {fs : FS} {f : String} {content : String}
    (hex : fs.pathExists f = true) (hread : fs.read f = Except.ok content)
    (heq : (clean_content content).count openBrace
      = (clean_content content).count closeBrace) :
    fileCheckOf fs f = [] := by
  simp [fileCheckOf, hex, hread, heq]

theorem mem_syntaxIssuesOf {fs : FS} {f : String} (hf : f ∈ critical_files)
    (hcheck : fileCheckOf fs f = [f ++ ": Unbalanced braces"]) :
    (f ++ ": Unbalanced braces") ∈ syntaxIssuesOf fs := by
  simp only [syntaxIssuesOf, List.mem_flatten]
  exact ⟨fileCheckOf fs f, List.mem_map_of_mem _ hf,
    by rw [hcheck]; exact List.mem_singleton_self _⟩

/-- C4: on a critical file whose content is a well-delimited text whose
cleaned form has balanced braces, inserting one extra opening brace in a code
segment (outside every string literal and comment) makes the brace check
record the file's name in the aggregated syntax issue, while inserting the
same brace inside a double-quoted string literal body, a line-comment body or
a block-comment body leaves the file's check silent, because literals and
comments are stripped before the braces are counted. -/
theorem claim_C4 :
    (∀ (fs : FS) (f : String) (pre post : List Seg) (s1 s2 : List Char),
      f ∈ critical_files →
      fs.pathExists f = true →
      fs.read f = Except.ok
        (String.mk (renderAll (pre ++ Seg.code (s1 ++ openBrace :: s2) :: post))) →
      wfSegs (pre ++ Seg.code (s1 ++ s2) :: post) = true →
      (clean_content (String.mk (renderAll (pre ++ Seg.code (s1 ++ s2) :: post)))).count openBrace
        = (clean_content (String.mk (renderAll (pre ++ Seg.code (s1 ++ s2) :: post)))).count closeBrace →
      (f ++ ": Unbalanced braces") ∈ syntaxIssuesOf fs
        ∧ (syntaxIssueWrapOf fs).length = 1)
    ∧ (∀ (fs : FS) (f : String) (pre post : List Seg) (b1 b2 : List Char),
      f ∈ critical_files →
      fs.pathExists f = true →
      fs.read f = Except.ok
        (String.mk (renderAll (pre ++ Seg.dstr (b1 ++ openBrace :: b2) :: post))) →
      wfSegs (pre ++ Seg.dstr (b1 ++ b2) :: post) = true →
      (clean_content (String.mk (renderAll (pre ++ Seg.dstr (b1 ++ b2) :: post)))).count openBrace
        = (clean_content (String.mk (renderAll (pre ++ Seg.dstr (b1 ++ b2) :: post)))).count closeBrace →
      fileCheckOf fs f = [])
    ∧ (∀ (fs : FS) (f : String) (pre post : List Seg) (b1 b2 : List Char),
      f ∈ critical_files →
      fs.pathExists f = true →
      fs.read f = Except.ok
        (String.mk (renderAll (pre ++ Seg.lineC (b1 ++ openBrace :: b2) :: post))) →
      wfSegs (pre ++ Seg.lineC (b1 ++ b2) :: post) = true →
      (clean_content (String.mk (renderAll (pre ++ Seg.lineC (b1 ++ b2) :: post)))).count openBrace
        = (clean_content (String.mk (renderAll (pre ++ Seg.lineC (b1 ++ b2) :: post)))).count closeBrace →
      fileCheckOf fs f = [])
    ∧ (∀ (fs : FS) (f : String) (pre post : List Seg) (b1 b2 : List Char),
      f ∈ critical_files →
      fs.pathExists f = true →
      fs.read f = Except.ok
        (String.mk (renderAll (pre ++ Seg.blockC (b1 ++ openBrace :: b2) :: post))) →
      wfSegs (pre ++ Seg.blockC (b1 ++ b2) :: post) = true →
      (clean_content (String.mk (renderAll (pre ++ Seg.blockC (b1 ++ b2) :: post)))).count openBrace
        = (clean_content (String.mk (renderAll (pre ++ Seg.blockC (b1 ++ b2) :: post)))).count closeBrace →
      fileCheckOf fs f = []) := by
  have hbne : (openBrace == closeBrace) = false := by decide
  refine ⟨?_, ?_, ?_, ?_⟩
  · intro fs f pre post s1 s2 hf hex hread hwf hbal
    have hwfM : wfSegs (pre ++ Seg.code (s1 ++ openBrace :: s2) :: post) = true :=
      wfSegs_replace (Seg.code (s1 ++ s2)) (Seg.code (s1 ++ openBrace :: s2))
        (wfSeg_code_insert (wfSegs_middle hwf)) rfl rfl pre post hwf
    rw [clean_content_render _ hwf] at hbal
    have hob : (cleanAll (pre ++ Seg.code (s1 ++ openBrace :: s2) :: post)).count openBrace
        = (cleanAll (pre ++ Seg.code (s1 ++ s2) :: post)).count openBrace + 1 := by
      rw [cleanAll_middle, cleanAll_middle]
      simp [Seg.cleanRender, List.count_append, List.count_cons, hbne]
      omega
    have hcb : (cleanAll (pre ++ Seg.code (s1 ++ openBrace :: s2) :: post)).count closeBrace
        = (cleanAll (pre ++ Seg.code (s1 ++ s2) :: post)).count closeBrace := by
      rw [cleanAll_middle, cleanAll_middle]
      simp [Seg.cleanRender, List.count_append, List.count_cons, hbne]
    have hne : (clean_content (String.mk (renderAll
          (pre ++ Seg.code (s1 ++ openBrace :: s2) :: post)))).count openBrace
        ≠ (clean_content (String.mk (renderAll
          (pre ++ Seg.code (s1 ++ openBrace :: s2) :: post)))).count closeBrace := by
      rw [clean_content_render _ hwfM, hob, hcb]
      omega
    have hcheck := fileCheckOf_unbalanced hex hread hne
    have hmem := mem_syntaxIssuesOf hf hcheck
    refine ⟨hmem, ?_⟩
    have hnem : syntaxIssuesOf fs ≠ [] := by
      intro he
      rw [he] at hmem
      exact absurd hmem (List.not_mem_nil _)
    simp [syntaxIssueWrapOf, List.isEmpty_iff, hnem]
  · intro fs f pre post b1 b2 _hf hex hread hwf hbal
    have hwfM : wfSegs (pre ++ Seg.dstr (b1 ++ openBrace :: b2) :: post) = true :=
      wfSegs_replace (Seg.dstr (b1 ++ b2)) (Seg.dstr (b1 ++ openBrace :: b2))
        (wfSeg_dstr_insert (wfSegs_middle hwf)) rfl rfl pre post hwf
    rw [clean_content_render _ hwf] at hbal
    have hceq : cleanAll (pre ++ Seg.dstr (b1 ++ openBrace :: b2) :: post)
        = cleanAll (pre ++ Seg.dstr (b1 ++ b2) :: post) := by
      rw [cleanAll_middle, cleanAll_middle]
      simp only [Seg.cleanRender]
    exact fileCheckOf_balanced hex hread
      (by rw [clean_content_render _ hwfM, hceq]; exact hbal)
  · intro fs f pre post b1 b2 _hf hex hread hwf hbal
    have hwfM : wfSegs (pre ++ Seg.lineC (b1 ++ openBrace :: b2) :: post) = true :=
      wfSegs_replace (Seg.lineC (b1 ++ b2)) (Seg.lineC (b1 ++ openBrace :: b2))
        (wfSeg_lineC_insert (wfSegs_middle hwf)) rfl rfl pre post hwf
    rw [clean_content_render _ hwf] at hbal
    have hceq : cleanAll (pre ++ Seg.lineC (b1 ++ openBrace :: b2) :: post)
        = cleanAll (pre ++ Seg.lineC (b1 ++ b2) :: post) := by
      rw [cleanAll_middle, cleanAll_middle]
      simp only [Seg.cleanRender]
    exact fileCheckOf_balanced hex hread
      (by rw [clean_content_render _ hwfM, hceq]; exact hbal)
  · intro fs f pre post b1 b2 _hf hex hread hwf hbal
    have hwfM : wfSegs (pre ++ Seg.blockC (b1 ++ openBrace :: b2) :: post) = true :=
      wfSegs_replace (Seg.blockC (b1 ++ b2)) (Seg.blockC (b1 ++ openBrace :: b2))
        (wfSeg_blockC_insert (wfSegs_middle hwf)) rfl rfl pre post hwf
    rw [clean_content_render _ hwf] at hbal
    have hceq : cleanAll (pre ++ Seg.blockC (b1 ++ openBrace :: b2) :: post)
        = cleanAll (pre ++ Seg.blockC (b1 ++ b2) :: post) := by
      rw [cleanAll_middle, cleanAll_middle]
      simp only [Seg.cleanRender]
    exact fileCheckOf_balanced hex hread
      (by rw [clean_content_render _ hwfM, hceq]; exact hbal)

/-- A critical file whose text is plain code with an extra opening brace. -/
def fs4a : FS :=
  ⟨fun p => if p = "App/AppDelegate.swift" then some FType.file else none,
   fun p => if p = "App/AppDelegate.swift"
     then Except.ok (String.mk (renderAll ([] ++ Seg.code (['a'] ++ openBrace :: []) :: [])))
     else Except.error "err",
   []⟩

/-- A critical file whose extra brace sits inside a double-quoted literal. -/
def fs4b : FS :=
  ⟨fun p => if p = "App/AppDelegate.swift" then some FType.file else none,
   fun p => if p = "App/AppDelegate.swift"
     then Except.ok (String.mk (renderAll ([] ++ Seg.dstr ([] ++ openBrace :: []) :: [])))
     else Except.error "err",
   []⟩

/-- A critical file whose extra brace sits inside a line comment. -/
def fs4c : FS :=
  ⟨fun p => if p = "App/AppDelegate.swift" then some FType.file else none,
   fun p => if p = "App/AppDelegate.swift"
     then Except.ok (String.mk (renderAll ([] ++ Seg.lineC ([] ++ openBrace :: []) :: [])))
     else Except.error "err",
   []⟩

/-- A critical file whose extra brace sits inside a block comment. -/
def fs4d : FS :=
  ⟨fun p => if p = "App/AppDelegate.swift" then some FType.file else none,
   fun p => if p = "App/AppDelegate.swift"
     then Except.ok (String.mk (renderAll ([] ++ Seg.blockC ([] ++ openBrace :: []) :: [])))
     else Except.error "err",
   []⟩

theorem claim_C4_witness :
    (("App/AppDelegate.swift" ++ ": Unbalanced braces") ∈ syntaxIssuesOf fs4a
      ∧ (syntaxIssueWrapOf fs4a).length = 1)
    ∧ fileCheckOf fs4b "App/AppDelegate.swift" = []
    ∧ fileCheckOf fs4c "App/AppDelegate.swift" = []
    ∧ fileCheckOf fs4d "App/AppDelegate.swift" = [] :=
  ⟨claim_C4.1 fs4a "App/AppDelegate.swift" [] [] ['a'] [] (by decide) rfl rfl (by decide)
      (by rw [clean_content_render ([] ++ Seg.code (['a'] ++ []) :: []) (by decide)]; decide),
   claim_C4.2.1 fs4b "App/AppDelegate.swift" [] [] [] [] (by decide) rfl rfl (by decide)
      (by rw [clean_content_render ([] ++ Seg.dstr ([] ++ []) :: []) (by decide)]; decide),
   claim_C4.2.2.1 fs4c "App/AppDelegate.swift" [] [] [] [] (by decide) rfl rfl (by decide)
      (by rw [clean_content_render ([] ++ Seg.lineC ([] ++ []) :: []) (by decide)]; decide),
   claim_C4.2.2.2 fs4d "App/AppDelegate.swift" [] [] [] [] (by decide) rfl rfl (by decide)
      (by rw [clean_content_render ([] ++ Seg.blockC ([] ++ []) :: []) (by decide)]; decide)⟩

end JJYWave
